import Mathlib

/-
Verification of the joint-distribution inference core of chap09.ipynb.

The notebook works with pandas DataFrames over float64.  The embedding
idealises a finite float as a rational number and represents a possibly
non-finite float (NaN, or the result of a division by zero) as `none` in
`Option ℚ`.  NaN-propagating numpy reductions and NaN-skipping pandas
reductions are embedded separately, following the library calls the
notebook actually makes.
-/

namespace Chap09

/-- A table cell: `some q` is a finite float value (idealised as a
rational); `none` stands for a non-finite float (NaN or inf), which the
source's numpy/pandas arithmetic produces on misaligned multiplication
and on zero division. -/
abbrev Cell := Option ℚ

/-- Addition of cells; a non-finite operand propagates, as in numpy. -/
def cellAdd : Cell → Cell → Cell
  | some x, some y => some (x + y)
  | _, _ => none

/-- Multiplication of cells; a non-finite operand propagates. -/
def cellMul : Cell → Cell → Cell
  | some x, some y => some (x * y)
  | _, _ => none

/-- Division of cells; a non-finite operand propagates, and division by
zero yields a non-finite value (inf or NaN in the source's floats). -/
def cellDiv : Cell → Cell → Cell
  | some x, some y => if y = 0 then none else some (x / y)
  | _, _ => none

/-- NaN-propagating sum of a list of cells, as numpy's ndarray.sum. -/
def osum : List Cell → Cell
  | [] => some 0
  | c :: cs => cellAdd c (osum cs)

/-- NaN-skipping sum of a list of cells, as pandas Series.sum with its
default skipna=True. -/
def seriesSum (cells : List Cell) : ℚ :=
  (cells.map fun c => c.getD 0).sum

/-- A pandas DataFrame as the notebook uses it: row labels (the index),
column labels, and a row-major grid of cells. -/
structure DFrame where
  index : List ℚ
  columns : List ℚ
  data : List (List Cell)
  deriving DecidableEq

/-- Shape well-formedness: one data row per index label, and every data
row as long as the column-label list. -/
def DFrame.WF (df : DFrame) : Prop :=
  df.data.length = df.index.length ∧ ∀ row ∈ df.data, row.length = df.columns.length

/-- Position of a label in a label list (first match), `none` when the
label is absent. -/
def idxOfQ (v : ℚ) : List ℚ → Option Nat
  | [] => none
  | x :: xs => if x = v then some 0 else (idxOfQ v xs).map (· + 1)

/-- An empiricaldist Pmf: a sequence of values (qs) with weights (ps). -/
structure Pmf where
  qs : List ℚ
  ps : List ℚ
  deriving DecidableEq

/-- Cell 34 of the notebook: X, Y = np.meshgrid(pmf1, pmf2); the outer
product DataFrame with columns = pmf1.qs and index = pmf2.qs, so the cell
in the row of y and the column of x holds weight1(x) * weight2(y). -/
def make_joint (pmf1 pmf2 : Pmf) : DFrame :=
  { index := pmf2.qs
    columns := pmf1.qs
    data := pmf2.ps.map fun py => pmf1.ps.map fun px => some (px * py) }

/-- Insertion step of an ascending sort of labels. -/
def insort (x : ℚ) : List ℚ → List ℚ
  | [] => [x]
  | y :: ys => if x ≤ y then x :: y :: ys else y :: insort x ys

/-- Ascending insertion sort of a label list. -/
def sortAsc (l : List ℚ) : List ℚ := l.foldr insort []

/-- The elements of ys that are not labels of xs, in order. -/
def notMemFilter (xs : List ℚ) : List ℚ → List ℚ
  | [] => []
  | y :: ys => if y ∈ xs then notMemFilter xs ys else y :: notMemFilter xs ys

/-- Sorted union of two label lists, as pandas Index.union produces when
two unequal indexes are aligned. -/
def sortedUnion (xs ys : List ℚ) : List ℚ :=
  sortAsc (xs ++ notMemFilter xs ys)

/-- Label-based cell lookup; a label missing from either axis reads as a
non-finite value, which is how pandas alignment fills absent labels. -/
def DFrame.cellAt (df : DFrame) (r c : ℚ) : Cell :=
  match idxOfQ r df.index, idxOfQ c df.columns with
  | some i, some j => (df.data.getD i []).getD j none
  | _, _ => none

/-- Cell 64's `joint * likelihood`: pandas elementwise multiplication.
With equal label lists the operation is positional and elementwise; with
unequal ones pandas realigns both operands on the sorted union of the
labels, filling NaN wherever a label is missing from one operand. -/
def dfMul (a b : DFrame) : DFrame :=
  if a.index = b.index ∧ a.columns = b.columns then
    { index := a.index
      columns := a.columns
      data := List.zipWith (fun ra rb => List.zipWith cellMul ra rb) a.data b.data }
  else
    { index := sortedUnion a.index b.index
      columns := sortedUnion a.columns b.columns
      data := (sortedUnion a.index b.index).map fun r =>
        (sortedUnion a.columns b.columns).map fun c =>
          cellMul (a.cellAt r c) (b.cellAt r c) }

/-- Cell 66's `joint.to_numpy().sum()`: the NaN-propagating sum of every
cell of the table. -/
def dfSum (df : DFrame) : Cell := osum df.data.flatten

/-- Division of every cell of a table by one scalar cell. -/
def dfDivScalar (df : DFrame) (c : Cell) : DFrame :=
  { df with data := df.data.map (List.map fun x => cellDiv x c) }

/-- Cell 66 of the notebook: prob_data = joint.to_numpy().sum();
joint /= prob_data; return prob_data.  The source divides the argument
table in place; the embedding passes that state explicitly: the first
component is the state of the argument table after the call, the second
the returned prob_data. -/
def normalize (joint : DFrame) : DFrame × Cell :=
  (dfDivScalar joint (dfSum joint), dfSum joint)

/-- Cells 64 and 67 composed, the update step of the spec:
posterior = joint * likelihood, then normalize(posterior).  Returns the
normalized posterior together with the evidence prob_data. -/
def update (joint likelihood : DFrame) : DFrame × Cell :=
  normalize (dfMul joint likelihood)

/-- Column sums of a table, as pandas DataFrame.sum(axis=0): rows are
accumulated componentwise, a non-finite cell counting as zero (skipna). -/
def colSums (df : DFrame) : List ℚ :=
  df.data.foldr (fun row acc => List.zipWith (fun c a => c.getD 0 + a) row acc)
    (List.replicate df.columns.length 0)

/-- Row sums of a table, as pandas DataFrame.sum(axis=1) (skipna). -/
def rowSums (df : DFrame) : List ℚ :=
  df.data.map fun row => seriesSum row

/-- Cell 86 of the notebook: Pmf(joint.sum(axis=axis)); axis 0 yields the
marginal of the first variable (keyed by the columns), axis 1 the marginal
of the second variable (keyed by the index). -/
def marginal (joint : DFrame) (axis : Fin 2) : Pmf :=
  if axis = 0 then { qs := joint.columns, ps := colSums joint }
  else { qs := joint.index, ps := rowSums joint }

/-- Cells 98 and 100 composed, the conditional extraction of the spec:
posterior[v] selects the column labelled v (none models the KeyError when
v is not a column label), Pmf(column) keeps the index as values, and
normalize() divides the weights by their skipna sum. -/
def conditional (joint : DFrame) (v : ℚ) : Option (List ℚ × List Cell) :=
  match idxOfQ v joint.columns with
  | none => none
  | some j =>
    let cells := joint.data.map fun row => row.getD j none
    some (joint.index, cells.map fun c => cellDiv c (some (seriesSum cells)))

/-- Cells 52 to 59 of the notebook, with the hard-coded comparison
generalised to the evidence function f: X, Y = np.meshgrid(x, y);
a = f evaluated on the grid (a[i][j] = f (x[j]) (y[i]), one row per
element of y); likelihood = pd.DataFrame(a, index=x, columns=y).  The
labels are written exactly as in the source: the first value sequence x
goes to the index and the second sequence y to the columns. -/
def likelihood_grid (x y : List ℚ) (f : ℚ → ℚ → ℚ) : DFrame :=
  { index := x
    columns := y
    data := y.map fun yv => x.map fun xv => some (f xv yv) }

/-- Cell 25: np.arange(178 - 24, 178 + 24, 0.5), the 96 grid points
154, 154.5, ..., 201.5. -/
def gridQs : List ℚ := (List.range 96).map fun k : ℕ => 154 + (k : ℚ) / 2

/-- The likelihood grid of the height example: the indicator of x > y
evaluated over the height grid, cells 52 to 59. -/
def heightLikelihood : DFrame :=
  likelihood_grid gridQs gridQs fun xv yv => if yv < xv then 1 else 0

/-- The unnormalized joint posterior of the height example for a prior
with weights ps on the height grid: cell 64's joint * likelihood. -/
def heightProduct (ps : List ℚ) : DFrame :=
  dfMul (make_joint { qs := gridQs, ps := ps } { qs := gridQs, ps := ps })
    heightLikelihood

/-- The joint posterior of the height example for a prior with weights ps
on the height grid: make_joint of the prior with itself, multiplied by the
x > y likelihood and normalized (cells 36, 64, 67). -/
def heightPosterior (ps : List ℚ) : DFrame :=
  (update (make_joint { qs := gridQs, ps := ps } { qs := gridQs, ps := ps })
    heightLikelihood).1

/-! Helper lemmas about cell arithmetic and list reductions. -/

theorem cellAdd_assoc (a b c : Cell) :
    cellAdd (cellAdd a b) c = cellAdd a (cellAdd b c) := by
  cases a <;> cases b <;> cases c <;> simp [cellAdd, add_assoc]

theorem osum_append (l1 l2 : List Cell) :
    osum (l1 ++ l2) = cellAdd (osum l1) (osum l2) := by
  induction l1 with
  | nil =>
    cases h : osum l2 <;> simp [osum, cellAdd, h]
  | cons a t ih => simp [osum, ih, cellAdd_assoc]

theorem osum_map_some {α : Type} (f : α → ℚ) (l : List α) :
    osum (l.map fun x => some (f x)) = some (l.map f).sum := by
  induction l with
  | nil => simp [osum]
  | cons a t ih => simp [osum, ih, cellAdd]

theorem osum_of_mem_none {l : List Cell} (h : none ∈ l) : osum l = none := by
  induction l with
  | nil => cases h
  | cons c cs ih =>
    rcases List.mem_cons.mp h with h1 | h2
    · rw [← h1, osum]; rfl
    · rw [osum, ih h2]; cases c <;> rfl

theorem osum_of_forall_some {l : List Cell} (h : ∀ c ∈ l, ∃ x, c = some x) :
    osum l = some (seriesSum l) := by
  induction l with
  | nil => simp [osum, seriesSum]
  | cons c cs ih =>
    obtain ⟨x, hx⟩ := h c (List.mem_cons_self c cs)
    subst hx
    rw [osum, ih fun c hc => h c (List.mem_cons_of_mem _ hc)]
    simp [cellAdd, seriesSum]

theorem osum_some_val {l : List Cell} {t : ℚ} (h : osum l = some t) :
    seriesSum l = t := by
  induction l generalizing t with
  | nil =>
    rw [osum] at h
    simp only [Option.some.injEq] at h
    simp [seriesSum, ← h]
  | cons c cs ih =>
    cases c with
    | none => rw [osum] at h; simp [cellAdd] at h
    | some x =>
      cases hr : osum cs with
      | none => rw [osum, hr] at h; simp [cellAdd] at h
      | some r =>
        rw [osum, hr] at h
        simp only [cellAdd, Option.some.injEq] at h
        simp [seriesSum] at ih ⊢
        rw [ih hr, ← h]

theorem sum_map_div (l : List ℚ) (t : ℚ) :
    (l.map fun x => x / t).sum = l.sum / t := by
  induction l with
  | nil => simp
  | cons a s ih => simp [ih, add_div]

theorem sum_map_mul_rightQ (xs : List ℚ) (r : ℚ) :
    (xs.map fun x => x * r).sum = xs.sum * r := by
  induction xs with
  | nil => simp
  | cons a t ih => simp [ih, add_mul]

theorem cellDiv_getD {c : Cell} {t : ℚ} (ht : t ≠ 0) :
    (cellDiv c (some t)).getD 0 = c.getD 0 / t := by
  cases c <;> simp [cellDiv, ht]

theorem seriesSum_div (l : List Cell) {t : ℚ} (ht : t ≠ 0) :
    seriesSum (l.map fun c => cellDiv c (some t)) = seriesSum l / t := by
  unfold seriesSum
  rw [List.map_map]
  have h1 : ((fun c : Cell => c.getD 0) ∘ fun c => cellDiv c (some t))
      = fun c : Cell => c.getD 0 / t := funext fun c => cellDiv_getD ht
  rw [h1]
  have h2 : (l.map fun c : Cell => c.getD 0 / t)
      = (l.map fun c : Cell => c.getD 0).map fun x => x / t := by
    rw [List.map_map]; rfl
  rw [h2, sum_map_div]

theorem osum_map_div (l : List Cell) {s : ℚ} (hs : s ≠ 0) :
    osum (l.map fun c => cellDiv c (some s)) = cellDiv (osum l) (some s) := by
  induction l with
  | nil => simp [osum, cellDiv, hs]
  | cons c cs ih =>
    rw [List.map_cons, osum, osum, ih]
    cases c with
    | none => simp [cellDiv, cellAdd]
    | some x =>
      cases hr : osum cs with
      | none => simp [cellDiv, cellAdd, hs]
      | some r => simp [cellDiv, cellAdd, hs, add_div]

theorem dfSum_dfDivScalar (df : DFrame) {s : ℚ} (hs : s ≠ 0) :
    dfSum (dfDivScalar df (some s)) = cellDiv (dfSum df) (some s) := by
  unfold dfSum dfDivScalar
  simp only []
  rw [← List.map_flatten, osum_map_div _ hs]

theorem map_eq_self_of_eq {α : Type} {f : α → α} :
    ∀ {l : List α}, l.map f = l → ∀ x ∈ l, f x = x := by
  intro l
  induction l with
  | nil => intro _ x hx; cases hx
  | cons a t ih =>
    intro h x hx
    rw [List.map_cons] at h
    injection h with h1 h2
    rcases List.mem_cons.mp hx with rfl | hx2
    · exact h1
    · exact ih h2 x hx2

theorem mem_zipWith {α β γ : Type} {f : α → β → γ} :
    ∀ {as : List α} {bs : List β} {x : γ},
      x ∈ List.zipWith f as bs → ∃ a ∈ as, ∃ b ∈ bs, x = f a b := by
  intro as
  induction as with
  | nil => intro bs x hx; simp [List.zipWith] at hx
  | cons a t ih =>
    intro bs x hx
    cases bs with
    | nil => simp [List.zipWith] at hx
    | cons b tb =>
      rw [List.zipWith_cons_cons] at hx
      rcases List.mem_cons.mp hx with rfl | hx2
      · exact ⟨a, List.mem_cons_self a t, b, List.mem_cons_self b tb, rfl⟩
      · obtain ⟨a1, ha1, b1, hb1, rfl⟩ := ih hx2
        exact ⟨a1, List.mem_cons_of_mem _ ha1, b1, List.mem_cons_of_mem _ hb1, rfl⟩

theorem getD_map_of_lt {α β : Type} {f : α → β} {l : List α} {i : Nat}
    (h : i < l.length) (d : β) (d0 : α) :
    (l.map f).getD i d = f (l.getD i d0) := by
  rw [List.getD_eq_getElem _ _ (by simpa using h), List.getD_eq_getElem _ _ h,
    List.getElem_map]

theorem mem_insort {x y : ℚ} {l : List ℚ} : x ∈ insort y l ↔ x = y ∨ x ∈ l := by
  induction l with
  | nil => simp [insort]
  | cons a t ih =>
    by_cases h : y ≤ a
    · simp [insort, h]
    · simp [insort, h, ih, or_left_comm]

theorem mem_sortAsc {x : ℚ} : ∀ {l : List ℚ}, x ∈ sortAsc l ↔ x ∈ l := by
  intro l
  induction l with
  | nil => simp [sortAsc]
  | cons a t ih =>
    show x ∈ insort a (sortAsc t) ↔ _
    rw [mem_insort, ih]
    simp

theorem mem_sortedUnion_left {x : ℚ} {xs ys : List ℚ} (h : x ∈ xs) :
    x ∈ sortedUnion xs ys := by
  unfold sortedUnion
  rw [mem_sortAsc]
  exact List.mem_append.mpr (Or.inl h)

theorem mem_notMemFilter {x : ℚ} {xs : List ℚ} :
    ∀ {ys : List ℚ}, x ∈ notMemFilter xs ys → x ∈ ys := by
  intro ys
  induction ys with
  | nil => intro h; cases h
  | cons y t ih =>
    intro h
    rw [notMemFilter] at h
    by_cases hy : y ∈ xs
    · rw [if_pos hy] at h
      exact List.mem_cons_of_mem _ (ih h)
    · rw [if_neg hy] at h
      rcases List.mem_cons.mp h with rfl | h2
      · exact List.mem_cons_self x t
      · exact List.mem_cons_of_mem _ (ih h2)

theorem mem_sortedUnion {x : ℚ} {xs ys : List ℚ} (h : x ∈ sortedUnion xs ys) :
    x ∈ xs ∨ x ∈ ys := by
  unfold sortedUnion at h
  rw [mem_sortAsc] at h
  rcases List.mem_append.mp h with h1 | h2
  · exact Or.inl h1
  · exact Or.inr (mem_notMemFilter h2)

theorem idxOfQ_eq_none {v : ℚ} : ∀ {l : List ℚ}, v ∉ l → idxOfQ v l = none := by
  intro l
  induction l with
  | nil => intro _; rfl
  | cons a t ih =>
    intro h
    have ha : ¬a = v := fun he => h (by rw [← he]; exact List.mem_cons_self a t)
    have ht : v ∉ t := fun hm => h (List.mem_cons_of_mem a hm)
    show (if a = v then some 0 else (idxOfQ v t).map (· + 1)) = none
    rw [if_neg ha, ih ht]
    rfl

theorem cellAt_of_not_mem_index {df : DFrame} {r c : ℚ} (h : r ∉ df.index) :
    df.cellAt r c = none := by
  cases h2 : idxOfQ c df.columns <;>
    simp [DFrame.cellAt, idxOfQ_eq_none h, h2]

/-! Theorems for the claims. -/

/-- C1: with matching axes, the update step multiplies the joint prior and
the likelihood elementwise cell by cell, returns the sum of the product as
the evidence scalar, returns as posterior the product divided by that sum,
and when the evidence is nonzero the posterior's cells sum to 1. -/
theorem c1_update_product_evidence_normalized (J L : DFrame) (s : ℚ)
    (hIdx : L.index = J.index) (hCols : L.columns = J.columns)
    (hs : dfSum (dfMul J L) = some s) (hs0 : s ≠ 0) :
    (dfMul J L).data
        = List.zipWith (fun ra rb => List.zipWith cellMul ra rb) J.data L.data
    ∧ (update J L).2 = some s
    ∧ (update J L).1 = dfDivScalar (dfMul J L) (some s)
    ∧ dfSum (update J L).1 = some 1 := by
  have hcond : J.index = L.index ∧ J.columns = L.columns := ⟨hIdx.symm, hCols.symm⟩
  refine ⟨?_, hs, ?_, ?_⟩
  · unfold dfMul
    rw [if_pos hcond]
  · show dfDivScalar (dfMul J L) (dfSum (dfMul J L)) = _
    rw [hs]
  · show dfSum (dfDivScalar (dfMul J L) (dfSum (dfMul J L))) = some 1
    rw [hs, dfSum_dfDivScalar _ hs0, hs]
    simp [cellDiv, hs0, div_self]

/-- Witness for C1 at a concrete one-cell prior and likelihood. -/
theorem c1_update_product_evidence_normalized_witness :
    dfSum (update ⟨[0], [0], [[some 1]]⟩ ⟨[0], [0], [[some 2]]⟩).1 = some 1 :=
  (c1_update_product_evidence_normalized ⟨[0], [0], [[some 1]]⟩
    ⟨[0], [0], [[some 2]]⟩ 2 rfl rfl
    (by norm_num [dfSum, dfMul, osum, cellAdd, cellMul]) (by norm_num)).2.2.2

/-- The total mass of the outer-product joint is the product of the two
weight totals. -/
theorem osum_outer (xs ys : List ℚ) :
    osum ((ys.map fun py => xs.map fun px => some (px * py)).flatten)
      = some (xs.sum * ys.sum) := by
  induction ys with
  | nil => simp [osum]
  | cons py t ih =>
    rw [List.map_cons, List.flatten_cons, osum_append, ih, osum_map_some]
    rw [sum_map_mul_rightQ]
    simp [cellAdd, mul_add]

/-- C2: make_joint labels the columns with the first distribution's values
and the rows with the second's, fills the cell in the row of y and the
column of x with weight1(x) times weight2(y), and the total mass of the
table is the product of the input masses, hence 1 when both inputs are
normalized. -/
theorem c2_make_joint_outer_product (p1 p2 : Pmf) :
    (make_joint p1 p2).columns = p1.qs
    ∧ (make_joint p1 p2).index = p2.qs
    ∧ (∀ i j, i < p2.ps.length → j < p1.ps.length →
        ((make_joint p1 p2).data.getD i []).getD j none
          = some (p1.ps.getD j 0 * p2.ps.getD i 0))
    ∧ dfSum (make_joint p1 p2) = some (p1.ps.sum * p2.ps.sum)
    ∧ (p1.ps.sum = 1 → p2.ps.sum = 1 → dfSum (make_joint p1 p2) = some 1) := by
  refine ⟨rfl, rfl, ?_, ?_, ?_⟩
  · intro i j hi hj
    show ((p2.ps.map fun py => p1.ps.map fun px => some (px * py)).getD i []).getD
        j none = _
    rw [getD_map_of_lt hi [] 0, getD_map_of_lt hj none 0]
  · exact osum_outer p1.ps p2.ps
  · intro h1 h2
    have h3 : dfSum (make_joint p1 p2) = some (p1.ps.sum * p2.ps.sum) :=
      osum_outer p1.ps p2.ps
    rw [h3, h1, h2, mul_one]

/-- Witness for C2 at two concrete normalized distributions. -/
theorem c2_make_joint_outer_product_witness :
    dfSum (make_joint ⟨[1, 2], [1/4, 3/4]⟩ ⟨[3, 4], [1/2, 1/2]⟩) = some 1 :=
  (c2_make_joint_outer_product ⟨[1, 2], [1/4, 3/4]⟩
    ⟨[3, 4], [1/2, 1/2]⟩).2.2.2.2 (by norm_num) (by norm_num)

/-- C4 (code bug): on two distinct value sequences the source's likelihood
DataFrame (cells 52-59) labels the index with the first sequence x and the
columns with the second sequence y, the transpose of the make_joint
convention (columns = first input, index = second input); in the notebook
both sequences are the same height grid, which hides the slip. -/
theorem c4_likelihood_labels_transposed :
    (likelihood_grid [1, 2] [3, 4] fun xv yv => if yv < xv then 1 else 0).index
        = [1, 2]
    ∧ (likelihood_grid [1, 2] [3, 4] fun xv yv => if yv < xv then 1 else 0).columns
        = [3, 4]
    ∧ (make_joint ⟨[1, 2], [1/2, 1/2]⟩ ⟨[3, 4], [1/2, 1/2]⟩).columns = [1, 2]
    ∧ (make_joint ⟨[1, 2], [1/2, 1/2]⟩ ⟨[3, 4], [1/2, 1/2]⟩).index = [3, 4] :=
  ⟨rfl, rfl, rfl, rfl⟩

/-- C5 counterexample: at a zero-evidence input the code raises no error:
update returns evidence 0 together with a produced posterior table whose
cell is non-finite (0/0, NaN in the source's floats) - exactly the silent
NaN coercion the claim rules out. -/
theorem c5_counterexample :
    update ⟨[0], [0], [[some 1]]⟩ ⟨[0], [0], [[some 0]]⟩
      = (⟨[0], [0], [[none]]⟩, some 0) := by
  norm_num [update, normalize, dfMul, dfSum, dfDivScalar, osum, cellAdd,
    cellMul, cellDiv, Prod.ext_iff]

/-- C5 amended: when the sum of the elementwise product is zero the code
does not fail with any error; normalize returns 0 as the evidence and the
division by zero silently turns every cell of the produced posterior into
a non-finite value (NaN in the source's floats). -/
theorem c5_zero_evidence_not_raised (J L : DFrame)
    (hz : dfSum (dfMul J L) = some 0) :
    (update J L).2 = some 0
    ∧ ∀ row ∈ (update J L).1.data, ∀ c ∈ row, c = none := by
  refine ⟨hz, ?_⟩
  intro row hrow c hc
  have hrow2 : row ∈ (dfMul J L).data.map
      (List.map fun x => cellDiv x (dfSum (dfMul J L))) := hrow
  rw [hz] at hrow2
  obtain ⟨r0, _, rfl⟩ := List.mem_map.mp hrow2
  obtain ⟨c0, _, rfl⟩ := List.mem_map.mp hc
  cases c0 <;> simp [cellDiv]

/-- Witness for C5 amended at a concrete zero-evidence input. -/
theorem c5_zero_evidence_not_raised_witness :
    (update ⟨[0], [0], [[some 1]]⟩ ⟨[0], [0], [[some 0]]⟩).2 = some 0 :=
  (c5_zero_evidence_not_raised ⟨[0], [0], [[some 1]]⟩ ⟨[0], [0], [[some 0]]⟩
    (by norm_num [dfSum, dfMul, osum, cellAdd, cellMul])).1

/-- C6 counterexample: update on two tables with disjoint axes raises no
ShapeMismatch: pandas aligns the operands on the sorted union of the
labels and update silently produces a posterior table, here the two-by-two
all-NaN table, with NaN as the evidence. -/
theorem c6_counterexample :
    update ⟨[1], [1], [[some 1]]⟩ ⟨[2], [2], [[some 1]]⟩
      = (⟨[1, 2], [1, 2], [[none, none], [none, none]]⟩, none) := by
  norm_num [update, normalize, dfMul, dfSum, dfDivScalar, osum, cellAdd,
    cellMul, cellDiv, sortedUnion, sortAsc, insort, notMemFilter,
    DFrame.cellAt, idxOfQ, Prod.ext_iff]

/-- C6 amended: update raises nothing on misaligned axes; the elementwise
product aligns both operands on the sorted union of their labels, filling
NaN where a label is missing from one of them, so with disjoint row-label
sets update still produces a posterior table (over the union of the
labels) whose cells are all non-finite, with non-finite evidence. -/
theorem c6_shape_mismatch_not_raised (a b : DFrame)
    (hdisj : ∀ r ∈ a.index, r ∉ b.index)
    (hra : a.index ≠ []) (hca : a.columns ≠ []) :
    (update a b).1.index = sortedUnion a.index b.index
    ∧ (update a b).2 = none
    ∧ ∀ row ∈ (update a b).1.data, ∀ c ∈ row, c = none := by
  have hne : ¬(a.index = b.index ∧ a.columns = b.columns) := by
    rintro ⟨h1, _⟩
    obtain ⟨r, hr⟩ := List.exists_mem_of_ne_nil a.index hra
    exact hdisj r hr (h1 ▸ hr)
  have hmul : dfMul a b =
      { index := sortedUnion a.index b.index
        columns := sortedUnion a.columns b.columns
        data := (sortedUnion a.index b.index).map fun r =>
          (sortedUnion a.columns b.columns).map fun c =>
            cellMul (a.cellAt r c) (b.cellAt r c) } := by
    unfold dfMul
    rw [if_neg hne]
  have hcells : ∀ row ∈ (dfMul a b).data, ∀ c ∈ row, c = none := by
    rw [hmul]
    intro row hrow c hc
    obtain ⟨r, hr, rfl⟩ := List.mem_map.mp hrow
    obtain ⟨cl, _, rfl⟩ := List.mem_map.mp hc
    rcases mem_sortedUnion hr with h1 | h2
    · have hb : b.cellAt r cl = none := cellAt_of_not_mem_index (hdisj r h1)
      cases ha : a.cellAt r cl <;> simp [cellMul, hb, ha]
    · have ha : a.cellAt r cl = none :=
        cellAt_of_not_mem_index fun hmem => hdisj r hmem h2
      simp [cellMul, ha]
  have hsum : dfSum (dfMul a b) = none := by
    obtain ⟨r, hr⟩ := List.exists_mem_of_ne_nil a.index hra
    obtain ⟨cl, hcl⟩ := List.exists_mem_of_ne_nil a.columns hca
    have hrU : r ∈ sortedUnion a.index b.index := mem_sortedUnion_left hr
    have hclU : cl ∈ sortedUnion a.columns b.columns := mem_sortedUnion_left hcl
    apply osum_of_mem_none
    have hrowmem : ((sortedUnion a.columns b.columns).map fun c =>
        cellMul (a.cellAt r c) (b.cellAt r c)) ∈ (dfMul a b).data := by
      rw [hmul]
      exact List.mem_map_of_mem _ hrU
    have hcmem := List.mem_map_of_mem
      (fun c => cellMul (a.cellAt r c) (b.cellAt r c)) hclU
    have heq := hcells _ hrowmem _ hcmem
    rw [heq] at hcmem
    exact List.mem_flatten.mpr ⟨_, hrowmem, hcmem⟩
  refine ⟨?_, hsum, ?_⟩
  · show (dfDivScalar (dfMul a b) (dfSum (dfMul a b))).index = _
    rw [hmul]
    rfl
  · intro row hrow c hc
    have hrow2 : row ∈ (dfMul a b).data.map
        (List.map fun x => cellDiv x (dfSum (dfMul a b))) := hrow
    rw [hsum] at hrow2
    obtain ⟨r0, _, rfl⟩ := List.mem_map.mp hrow2
    obtain ⟨c0, _, rfl⟩ := List.mem_map.mp hc
    cases c0 <;> simp [cellDiv]

/-- Witness for C6 amended at two concrete disjointly-labelled tables. -/
theorem c6_shape_mismatch_not_raised_witness :
    (update ⟨[1], [1], [[some 1]]⟩ ⟨[2], [2], [[some 1]]⟩).2 = none :=
  (c6_shape_mismatch_not_raised ⟨[1], [1], [[some 1]]⟩ ⟨[2], [2], [[some 1]]⟩
    (by norm_num) (by norm_num) (by norm_num)).2.1

/-- C9 counterexample: normalize changes the table that was passed in: the
source's in-place division (joint /= prob_data), made visible by explicit
state passing, leaves the caller's table different from what it was. -/
theorem c9_counterexample :
    (normalize ⟨[0], [0], [[some 2]]⟩).1 ≠ ⟨[0], [0], [[some 2]]⟩ := by
  norm_num [normalize, dfSum, dfDivScalar, osum, cellAdd, cellDiv]

/-- C9 amended: make_joint and the elementwise product construct new
tables, but normalize mutates the table passed to it, dividing every cell
in place by the pre-normalization total and returning that total; whenever
the total differs from 1 and some cell holds a nonzero finite weight, the
caller's table is changed by the call. -/
theorem c9_normalize_mutates (df : DFrame) (t x : ℚ)
    (hs : dfSum df = some t) (ht : t ≠ 1) (hx : x ≠ 0)
    (hmem : ∃ row ∈ df.data, some x ∈ row) :
    (normalize df).2 = some t ∧ (normalize df).1 ≠ df := by
  refine ⟨hs, ?_⟩
  intro heq
  have hdata : df.data.map (List.map fun c => cellDiv c (dfSum df)) = df.data :=
    congrArg DFrame.data heq
  obtain ⟨row, hrow, hcx⟩ := hmem
  have h1 := map_eq_self_of_eq hdata row hrow
  have h2 := map_eq_self_of_eq h1 _ hcx
  rw [hs] at h2
  by_cases h0 : t = 0
  · rw [h0] at h2
    simp [cellDiv] at h2
  · have h3 : x / t = x := by simpa [cellDiv, h0] using h2
    rw [div_eq_iff h0] at h3
    have h4 : x * 1 = x * t := by rw [mul_one]; exact h3
    exact ht (mul_left_cancel₀ hx h4).symm

/-! Helpers for the marginalization claims. -/

theorem zipWith_getD_add_map (xs : List ℚ) (py s : ℚ) :
    List.zipWith (fun c a => c.getD 0 + a)
      (xs.map fun px => some (px * py)) (xs.map fun px => px * s)
      = xs.map fun px => px * (py + s) := by
  induction xs with
  | nil => rfl
  | cons a t ih => simp [ih, mul_add]

theorem map_mul_zero_eq_replicate (xs : List ℚ) :
    (xs.map fun px => px * (0 : ℚ)) = List.replicate xs.length 0 := by
  induction xs with
  | nil => rfl
  | cons a t ih => simp [ih, List.replicate_succ]

theorem colSums_outer (xs ys : List ℚ) :
    (ys.map fun py => xs.map fun px => some (px * py)).foldr
      (fun row acc => List.zipWith (fun c a => c.getD 0 + a) row acc)
      (List.replicate xs.length (0 : ℚ))
      = xs.map fun px => px * ys.sum := by
  induction ys with
  | nil =>
    simp only [List.map_nil, List.foldr_nil, List.sum_nil]
    rw [← map_mul_zero_eq_replicate]
  | cons py t ih =>
    simp only [List.map_cons, List.foldr_cons, ih, List.sum_cons]
    rw [zipWith_getD_add_map]

theorem colSums_make_joint (p1 p2 : Pmf) (h1 : p1.qs.length = p1.ps.length) :
    colSums (make_joint p1 p2) = p1.ps.map fun px => px * p2.ps.sum := by
  show (p2.ps.map fun py => p1.ps.map fun px => some (px * py)).foldr _
      (List.replicate p1.qs.length 0) = _
  rw [h1]
  exact colSums_outer p1.ps p2.ps

theorem rowSums_make_joint (p1 p2 : Pmf) :
    rowSums (make_joint p1 p2) = p2.ps.map fun py => p1.ps.sum * py := by
  show (p2.ps.map fun py => p1.ps.map fun px => some (px * py)).map seriesSum = _
  rw [List.map_map]
  have hfun : (seriesSum ∘ fun py => p1.ps.map fun px => some (px * py))
      = fun py => p1.ps.sum * py := by
    funext py
    show seriesSum (p1.ps.map fun px => some (px * py)) = _
    unfold seriesSum
    rw [List.map_map]
    have h0 : ((fun c : Cell => c.getD 0) ∘ fun px : ℚ => some (px * py))
        = fun px : ℚ => px * py := rfl
    rw [h0, sum_map_mul_rightQ]
  rw [hfun]

/-- C3: the round-trip law.  In the source's convention joint.sum(axis=1)
sums over all columns (over the first variable's values) and recovers the
second input distribution, while joint.sum(axis=0) sums over the rows and
recovers the first input distribution; both hold exactly for normalized
inputs. -/
theorem c3_marginal_round_trip (p1 p2 : Pmf)
    (h1 : p1.qs.length = p1.ps.length)
    (hn1 : p1.ps.sum = 1) (hn2 : p2.ps.sum = 1) :
    marginal (make_joint p1 p2) 1 = p2 ∧ marginal (make_joint p1 p2) 0 = p1 := by
  constructor
  · show Pmf.mk (make_joint p1 p2).index (rowSums (make_joint p1 p2)) = p2
    rw [rowSums_make_joint, hn1]
    show Pmf.mk p2.qs (p2.ps.map fun py => 1 * py) = p2
    simp [one_mul]
  · show Pmf.mk (make_joint p1 p2).columns (colSums (make_joint p1 p2)) = p1
    rw [colSums_make_joint p1 p2 h1, hn2]
    show Pmf.mk p1.qs (p1.ps.map fun px => px * 1) = p1
    simp [mul_one]

/-- Witness for C3 at two concrete normalized distributions. -/
theorem c3_marginal_round_trip_witness :
    marginal (make_joint ⟨[1, 2], [1/4, 3/4]⟩ ⟨[3, 4], [1/2, 1/2]⟩) 1
      = (⟨[3, 4], [1/2, 1/2]⟩ : Pmf) :=
  (c3_marginal_round_trip ⟨[1, 2], [1/4, 3/4]⟩ ⟨[3, 4], [1/2, 1/2]⟩
    rfl (by norm_num) (by norm_num)).1

/-! Helpers for the identity-likelihood claim. -/

theorem zipWith_cellMul_ones :
    ∀ (r1 r2 : List Cell), r1.length = r2.length → (∀ c ∈ r2, c = some 1) →
      List.zipWith cellMul r1 r2 = r1 := by
  intro r1
  induction r1 with
  | nil => intro r2 _ _; rfl
  | cons c t ih =>
    intro r2 hlen hones
    cases r2 with
    | nil => simp at hlen
    | cons c2 t2 =>
      rw [List.zipWith_cons_cons, hones c2 (List.mem_cons_self c2 t2),
        ih t2 (by simpa using hlen) fun c hc => hones c (List.mem_cons_of_mem _ hc)]
      cases c <;> simp [cellMul]

theorem zipWith_rows_ones :
    ∀ (R1 R2 : List (List Cell)) (m : Nat), R1.length = R2.length →
      (∀ r ∈ R1, r.length = m) → (∀ r ∈ R2, r.length = m) →
      (∀ r ∈ R2, ∀ c ∈ r, c = some 1) →
      List.zipWith (fun ra rb => List.zipWith cellMul ra rb) R1 R2 = R1 := by
  intro R1
  induction R1 with
  | nil => intro R2 m _ _ _ _; rfl
  | cons r t ih =>
    intro R2 m hlen h1 h2 hones
    cases R2 with
    | nil => simp at hlen
    | cons r2 t2 =>
      have hl : r.length = r2.length := by
        rw [h1 r (List.mem_cons_self r t), h2 r2 (List.mem_cons_self r2 t2)]
      rw [List.zipWith_cons_cons,
        zipWith_cellMul_ones r r2 hl fun c hc =>
          hones r2 (List.mem_cons_self r2 t2) c hc,
        ih t2 m (by simpa using hlen) (fun x hx => h1 x (List.mem_cons_of_mem _ hx))
          (fun x hx => h2 x (List.mem_cons_of_mem _ hx))
          fun x hx c hc => hones x (List.mem_cons_of_mem _ hx) c hc]

theorem dfDivScalar_one (df : DFrame) : dfDivScalar df (some 1) = df := by
  have hf : (fun x : Cell => cellDiv x (some 1)) = id := by
    funext x
    cases x <;> simp [cellDiv]
  unfold dfDivScalar
  rw [hf]
  have hg : List.map (id : Cell → Cell) = id := funext fun l => List.map_id l
  rw [hg, List.map_id]

/-- C8: for a well-formed normalized joint table J (total mass 1) and an
all-ones likelihood grid with the same labels and shape, update returns J
itself cell for cell, and the returned evidence equals the total mass of
J: the identity likelihood only re-normalizes. -/
theorem c8_identity_likelihood (J L : DFrame)
    (hJwf : J.WF) (hLwf : L.WF)
    (hIdx : L.index = J.index) (hCols : L.columns = J.columns)
    (hones : ∀ row ∈ L.data, ∀ c ∈ row, c = some 1)
    (hmass : dfSum J = some 1) :
    update J L = (J, some 1) := by
  have hmul : dfMul J L = J := by
    unfold dfMul
    rw [if_pos ⟨hIdx.symm, hCols.symm⟩]
    have hlen : J.data.length = L.data.length := by
      rw [hJwf.1, hLwf.1, hIdx]
    rw [zipWith_rows_ones J.data L.data J.columns.length hlen hJwf.2
      (fun r hr => by rw [hLwf.2 r hr, hCols]) hones]
  show (dfDivScalar (dfMul J L) (dfSum (dfMul J L)), dfSum (dfMul J L)) = (J, some 1)
  rw [hmul, hmass, dfDivScalar_one]

/-- Witness for C8 at a concrete normalized one-cell joint. -/
theorem c8_identity_likelihood_witness :
    update ⟨[0], [0], [[some 1]]⟩ ⟨[0], [0], [[some 1]]⟩
      = ((⟨[0], [0], [[some 1]]⟩ : DFrame), some 1) :=
  c8_identity_likelihood ⟨[0], [0], [[some 1]]⟩ ⟨[0], [0], [[some 1]]⟩
    (by simp [DFrame.WF]) (by simp [DFrame.WF]) rfl rfl (by simp)
    (by norm_num [dfSum, osum, cellAdd])

/-! Helpers for the marginal-mass claim. -/

theorem seriesSum_flatten : ∀ L : List (List Cell),
    seriesSum L.flatten = (L.map seriesSum).sum := by
  intro L
  induction L with
  | nil => rfl
  | cons r t ih =>
    rw [List.flatten_cons]
    unfold seriesSum at ih ⊢
    rw [List.map_append, List.sum_append, List.map_cons, List.sum_cons, ih]

theorem zipWith_add_sum : ∀ (row : List Cell) (acc : List ℚ),
    row.length = acc.length →
    (List.zipWith (fun c a => c.getD 0 + a) row acc).sum
      = seriesSum row + acc.sum := by
  intro row
  induction row with
  | nil =>
    intro acc h
    cases acc with
    | nil => simp [seriesSum]
    | cons a t => simp at h
  | cons c t ih =>
    intro acc h
    cases acc with
    | nil => simp at h
    | cons a ta =>
      rw [List.zipWith_cons_cons, List.sum_cons, ih ta (by simpa using h)]
      unfold seriesSum
      simp [List.sum_cons]
      ring

theorem colFold_length : ∀ (rows : List (List Cell)) (init : List ℚ),
    (∀ r ∈ rows, r.length = init.length) →
    (rows.foldr (fun row acc =>
      List.zipWith (fun c a => c.getD 0 + a) row acc) init).length
      = init.length := by
  intro rows
  induction rows with
  | nil => intro init _; rfl
  | cons r t ih =>
    intro init h
    rw [List.foldr_cons, List.length_zipWith,
      ih init fun x hx => h x (List.mem_cons_of_mem _ hx),
      h r (List.mem_cons_self r t)]
    exact min_self _

theorem colFold_sum : ∀ (rows : List (List Cell)) (init : List ℚ),
    (∀ r ∈ rows, r.length = init.length) →
    (rows.foldr (fun row acc =>
      List.zipWith (fun c a => c.getD 0 + a) row acc) init).sum
      = (rows.map seriesSum).sum + init.sum := by
  intro rows
  induction rows with
  | nil => intro init _; simp
  | cons r t ih =>
    intro init h
    have hlen : r.length = (t.foldr (fun row acc =>
        List.zipWith (fun c a => c.getD 0 + a) row acc) init).length := by
      rw [colFold_length t init fun x hx => h x (List.mem_cons_of_mem _ hx),
        h r (List.mem_cons_self r t)]
    rw [List.foldr_cons, zipWith_add_sum r _ hlen,
      ih init fun x hx => h x (List.mem_cons_of_mem _ hx)]
    simp [List.sum_cons]
    ring

/-- C10: for a well-formed table whose numpy total is the finite value t,
the marginal extracted along either axis has total weight exactly t; in
particular both marginals of a normalized joint posterior (t = 1) already
sum to 1 without any further normalization. -/
theorem c10_marginal_mass (df : DFrame) (t : ℚ)
    (hwf : df.WF) (hs : dfSum df = some t) :
    (marginal df 0).ps.sum = t ∧ (marginal df 1).ps.sum = t := by
  have htot : seriesSum df.data.flatten = t := osum_some_val hs
  have hrows : (df.data.map seriesSum).sum = t := by
    rw [← seriesSum_flatten]
    exact htot
  constructor
  · show (colSums df).sum = t
    unfold colSums
    rw [colFold_sum df.data (List.replicate df.columns.length 0)
      fun r hr => by rw [hwf.2 r hr, List.length_replicate]]
    rw [hrows]
    simp [List.sum_replicate]
  · show (rowSums df).sum = t
    unfold rowSums
    exact hrows

/-- Witness for C10 at a concrete well-formed normalized table. -/
theorem c10_marginal_mass_witness :
    (marginal ⟨[10, 20], [1, 2], [[some (1/2), some (1/4)],
        [some 0, some (1/4)]]⟩ 0).ps.sum = 1 :=
  (c10_marginal_mass ⟨[10, 20], [1, 2], [[some (1/2), some (1/4)],
      [some 0, some (1/4)]]⟩ 1 (by simp [DFrame.WF])
    (by norm_num [dfSum, osum, cellAdd])).1

/-! Helpers for the conditional claim on the height example. -/

theorem zipWith_map_map {α β α2 β2 γ : Type} (f : α2 → β2 → γ) (g : α → α2)
    (h : β → β2) : ∀ (l1 : List α) (l2 : List β),
    List.zipWith f (l1.map g) (l2.map h)
      = List.zipWith (fun a b => f (g a) (h b)) l1 l2 := by
  intro l1
  induction l1 with
  | nil => intro l2; rfl
  | cons a t ih =>
    intro l2
    cases l2 with
    | nil => rfl
    | cons b tb => simp [ih]

theorem getD_zipWith_of_lt {α β γ : Type} {f : α → β → γ} {l1 : List α}
    {l2 : List β} {i : Nat} (h1 : i < l1.length) (h2 : i < l2.length)
    (d : γ) (d1 : α) (d2 : β) :
    (List.zipWith f l1 l2).getD i d = f (l1.getD i d1) (l2.getD i d2) := by
  rw [List.getD_eq_getElem _ _
      (by rw [List.length_zipWith]; exact lt_min h1 h2),
    List.getD_eq_getElem _ _ h1, List.getD_eq_getElem _ _ h2,
    List.getElem_zipWith]

theorem grid_len : gridQs.length = 96 := by
  unfold gridQs
  rw [List.length_map, List.length_range]

theorem grid_getD {i : Nat} (h : i < 96) :
    gridQs.getD i 0 = 154 + (i : ℚ) / 2 := by
  have hl : i < gridQs.length := by rw [grid_len]; exact h
  rw [List.getD_eq_getElem _ _ hl]
  unfold gridQs
  rw [List.getElem_map, List.getElem_range]

theorem grid_get52 : gridQs.getD 52 0 = 180 := by
  rw [grid_getD (by norm_num)]
  norm_num

theorem grid_get0 : gridQs.getD 0 0 = 154 := by
  rw [grid_getD (by norm_num)]
  norm_num

theorem grid_mem180 : (180 : ℚ) ∈ gridQs := by
  have hl : 52 < gridQs.length := by rw [grid_len]; norm_num
  have h := List.getElem_mem hl
  rw [← List.getD_eq_getElem gridQs 0 hl, grid_get52] at h
  exact h

theorem idxOfQ_eq_some {v : ℚ} :
    ∀ (l : List ℚ) (i : Nat), i < l.length → l.getD i 0 = v →
      (∀ j, j < i → l.getD j 0 ≠ v) → idxOfQ v l = some i := by
  intro l
  induction l with
  | nil => intro i hi _ _; simp at hi
  | cons x xs ih =>
    intro i hi hv hne
    cases i with
    | zero =>
      rw [List.getD_cons_zero] at hv
      show (if x = v then some 0 else (idxOfQ v xs).map (· + 1)) = some 0
      rw [if_pos hv]
    | succ n =>
      have hx : ¬x = v := by
        have h0 := hne 0 (Nat.succ_pos n)
        rw [List.getD_cons_zero] at h0
        exact h0
      show (if x = v then some 0 else (idxOfQ v xs).map (· + 1)) = some (n + 1)
      rw [if_neg hx,
        ih n (by simpa using hi)
          (by rw [List.getD_cons_succ] at hv; exact hv)
          fun j hj => by
            have hj2 := hne (j + 1) (Nat.succ_lt_succ hj)
            rw [List.getD_cons_succ] at hj2
            exact hj2]
      rfl

theorem idxOfQ_grid_180 : idxOfQ 180 gridQs = some 52 := by
  apply idxOfQ_eq_some gridQs 52 (by rw [grid_len]; norm_num) grid_get52
  intro j hj
  have hj96 : j < 96 := lt_trans hj (by norm_num)
  rw [grid_getD hj96]
  have hc : (j : ℚ) < 52 := by exact_mod_cast hj
  intro he
  have hlt : (154 : ℚ) + (j : ℚ) / 2 < 180 := by linarith
  rw [he] at hlt
  exact lt_irrefl _ hlt

theorem getD_pos (ps : List ℚ) (hpos : ∀ p ∈ ps, 0 < p) {i : Nat}
    (h : i < ps.length) : 0 < ps.getD i 0 := by
  apply hpos
  rw [List.getD_eq_getElem _ _ h]
  exact List.getElem_mem h

theorem heightProduct_eq (ps : List ℚ) :
    heightProduct ps
      = ⟨gridQs, gridQs,
          List.zipWith (fun py yv => List.zipWith (fun px xv =>
              cellMul (some (px * py)) (some (if yv < xv then 1 else 0)))
            ps gridQs) ps gridQs⟩ := by
  unfold heightProduct dfMul make_joint heightLikelihood likelihood_grid
  rw [if_pos ⟨rfl, rfl⟩]
  simp only [zipWith_map_map]

theorem heightProduct_data_len (ps : List ℚ) (hlen : ps.length = 96) :
    (heightProduct ps).data.length = 96 := by
  simp [heightProduct_eq, List.length_zipWith, hlen, grid_len]

theorem heightProduct_row (ps : List ℚ) (hlen : ps.length = 96)
    {i : Nat} (hi : i < 96) :
    (heightProduct ps).data.getD i []
      = List.zipWith (fun px xv =>
          cellMul (some (px * ps.getD i 0))
            (some (if gridQs.getD i 0 < xv then 1 else 0))) ps gridQs := by
  rw [heightProduct_eq]
  exact getD_zipWith_of_lt (by rw [hlen]; exact hi)
    (by rw [grid_len]; exact hi) [] 0 0

theorem heightProduct_row_len (ps : List ℚ) (hlen : ps.length = 96)
    {i : Nat} (hi : i < 96) :
    ((heightProduct ps).data.getD i []).length = 96 := by
  rw [heightProduct_row ps hlen hi, List.length_zipWith, hlen, grid_len]
  exact min_self 96

theorem heightProduct_cell (ps : List ℚ) (hlen : ps.length = 96)
    {i : Nat} (hi : i < 96) :
    ((heightProduct ps).data.getD i []).getD 52 none
      = some (ps.getD 52 0 * ps.getD i 0
          * if gridQs.getD i 0 < 180 then 1 else 0) := by
  rw [heightProduct_row ps hlen hi,
    getD_zipWith_of_lt (by rw [hlen]; norm_num) (by rw [grid_len]; norm_num)
      none 0 0,
    grid_get52]
  simp [cellMul]

theorem heightProduct_cells (ps : List ℚ) (hpos : ∀ p ∈ ps, 0 < p) :
    ∀ c ∈ (heightProduct ps).data.flatten, ∃ v, c = some v ∧ 0 ≤ v := by
  intro c hc
  obtain ⟨row, hrow, hcrow⟩ := List.mem_flatten.mp hc
  have hd := congrArg DFrame.data (heightProduct_eq ps)
  rw [hd] at hrow
  obtain ⟨py, hpy, yv, _, rfl⟩ := mem_zipWith hrow
  obtain ⟨px, hpx, xv, _, rfl⟩ := mem_zipWith hcrow
  refine ⟨px * py * (if yv < xv then 1 else 0), rfl, ?_⟩
  have h1 := hpos px hpx
  have h2 := hpos py hpy
  by_cases h : yv < xv
  · rw [if_pos h, mul_one]
    exact le_of_lt (mul_pos h1 h2)
  · rw [if_neg h, mul_zero]

theorem heightEvidence (ps : List ℚ) (hlen : ps.length = 96)
    (hpos : ∀ p ∈ ps, 0 < p) :
    ∃ s : ℚ, dfSum (heightProduct ps) = some s ∧ 0 < s := by
  have hall := heightProduct_cells ps hpos
  have hsum : dfSum (heightProduct ps)
      = some (seriesSum (heightProduct ps).data.flatten) :=
    osum_of_forall_some fun c hc => (hall c hc).imp fun v hv => hv.1
  refine ⟨seriesSum (heightProduct ps).data.flatten, hsum, ?_⟩
  have h0 : (0 : Nat) < 96 := by norm_num
  have hrowmem : (heightProduct ps).data.getD 0 [] ∈ (heightProduct ps).data := by
    have hls : 0 < (heightProduct ps).data.length := by
      rw [heightProduct_data_len ps hlen]
      norm_num
    rw [List.getD_eq_getElem _ _ hls]
    exact List.getElem_mem hls
  have hcellmem : ((heightProduct ps).data.getD 0 []).getD 52 none
      ∈ (heightProduct ps).data.getD 0 [] := by
    have hl2 : 52 < ((heightProduct ps).data.getD 0 []).length := by
      rw [heightProduct_row_len ps hlen h0]
      norm_num
    rw [List.getD_eq_getElem _ _ hl2]
    exact List.getElem_mem hl2
  have hflat : ((heightProduct ps).data.getD 0 []).getD 52 none
      ∈ (heightProduct ps).data.flatten :=
    List.mem_flatten.mpr ⟨_, hrowmem, hcellmem⟩
  have hval : ((heightProduct ps).data.getD 0 []).getD 52 none
      = some (ps.getD 52 0 * ps.getD 0 0) := by
    rw [heightProduct_cell ps hlen h0, grid_get0, if_pos (by norm_num), mul_one]
  have hmm0 := List.mem_map_of_mem (fun c : Cell => c.getD 0) hflat
  rw [hval] at hmm0
  have hmm : ps.getD 52 0 * ps.getD 0 0
      ∈ (heightProduct ps).data.flatten.map fun c => c.getD 0 := by
    simpa using hmm0
  have hnn : ∀ x ∈ (heightProduct ps).data.flatten.map fun c => c.getD 0,
      0 ≤ x := by
    intro x hx
    obtain ⟨c, hc, rfl⟩ := List.mem_map.mp hx
    obtain ⟨v, rfl, hv⟩ := hall c hc
    simpa using hv
  have hle := List.single_le_sum hnn _ hmm
  have hp52 : 0 < ps.getD 52 0 := getD_pos ps hpos (by rw [hlen]; norm_num)
  have hp0 : 0 < ps.getD 0 0 := getD_pos ps hpos (by rw [hlen]; norm_num)
  calc (0 : ℚ) < ps.getD 52 0 * ps.getD 0 0 := mul_pos hp52 hp0
    _ ≤ seriesSum (heightProduct ps).data.flatten := hle

theorem heightPosterior_columns (ps : List ℚ) :
    (heightPosterior ps).columns = gridQs := by
  show (heightProduct ps).columns = gridQs
  rw [heightProduct_eq]

theorem heightPosterior_index (ps : List ℚ) :
    (heightPosterior ps).index = gridQs := by
  show (heightProduct ps).index = gridQs
  rw [heightProduct_eq]

theorem heightPosterior_data (ps : List ℚ) {sVal : ℚ}
    (hs : dfSum (heightProduct ps) = some sVal) :
    (heightPosterior ps).data
      = (heightProduct ps).data.map
          (List.map fun x => cellDiv x (some sVal)) := by
  show (heightProduct ps).data.map
      (List.map fun x => cellDiv x (dfSum (heightProduct ps))) = _
  rw [hs]

theorem heightPosterior_data_len (ps : List ℚ) (hlen : ps.length = 96) :
    (heightPosterior ps).data.length = 96 := by
  show ((heightProduct ps).data.map
      (List.map fun x => cellDiv x (dfSum (heightProduct ps)))).length = 96
  rw [List.length_map, heightProduct_data_len ps hlen]

theorem heightPosterior_colcell (ps : List ℚ) (hlen : ps.length = 96)
    {sVal : ℚ} (hs : dfSum (heightProduct ps) = some sVal) (hsne : sVal ≠ 0)
    {i : Nat} (hi : i < 96) :
    ((heightPosterior ps).data.map fun row => row.getD 52 none).getD i none
      = some (ps.getD 52 0 * ps.getD i 0
          * (if gridQs.getD i 0 < 180 then 1 else 0) / sVal) := by
  rw [getD_map_of_lt (by rw [heightPosterior_data_len ps hlen]; exact hi)
    none []]
  have hrow : (heightPosterior ps).data.getD i []
      = List.map (fun x => cellDiv x (some sVal))
          ((heightProduct ps).data.getD i []) := by
    rw [heightPosterior_data ps hs]
    exact getD_map_of_lt (by rw [heightProduct_data_len ps hlen]; exact hi) [] []
  rw [hrow,
    getD_map_of_lt (by rw [heightProduct_row_len ps hlen hi]; norm_num)
      none none,
    heightProduct_cell ps hlen hi]
  simp [cellDiv, hsne]

theorem heightPosterior_colcells_nonneg (ps : List ℚ)
    (hpos : ∀ p ∈ ps, 0 < p) {sVal : ℚ}
    (hs : dfSum (heightProduct ps) = some sVal) (hspos : 0 < sVal) :
    ∀ c ∈ ((heightPosterior ps).data.map fun row => row.getD 52 none),
      0 ≤ c.getD 0 := by
  intro c hc
  obtain ⟨row, hrow, rfl⟩ := List.mem_map.mp hc
  rw [heightPosterior_data ps hs] at hrow
  obtain ⟨r0, hr0, rfl⟩ := List.mem_map.mp hrow
  by_cases h52 : 52 < r0.length
  · rw [getD_map_of_lt h52 none none]
    have hcell : r0.getD 52 none ∈ r0 := by
      rw [List.getD_eq_getElem _ _ h52]
      exact List.getElem_mem h52
    have hflat : r0.getD 52 none ∈ (heightProduct ps).data.flatten :=
      List.mem_flatten.mpr ⟨r0, hr0, hcell⟩
    obtain ⟨v, hv, hvnn⟩ := heightProduct_cells ps hpos _ hflat
    rw [hv, cellDiv_getD (ne_of_gt hspos)]
    simpa using div_nonneg hvnn (le_of_lt hspos)
  · rw [List.getD_eq_default]
    · simp
    · rw [List.length_map]
      omega

theorem heightPosterior_total_pos (ps : List ℚ) (hlen : ps.length = 96)
    (hpos : ∀ p ∈ ps, 0 < p) {sVal : ℚ}
    (hs : dfSum (heightProduct ps) = some sVal) (hspos : 0 < sVal) :
    0 < seriesSum ((heightPosterior ps).data.map fun row => row.getD 52 none) := by
  have hmem0 : ((heightPosterior ps).data.map fun row => row.getD 52 none).getD
      0 none ∈ (heightPosterior ps).data.map fun row => row.getD 52 none := by
    have hl : 0 < ((heightPosterior ps).data.map
        fun row => row.getD 52 none).length := by
      rw [List.length_map, heightPosterior_data_len ps hlen]
      norm_num
    rw [List.getD_eq_getElem _ _ hl]
    exact List.getElem_mem hl
  have hval := heightPosterior_colcell ps hlen hs (ne_of_gt hspos)
    (by norm_num : (0 : Nat) < 96)
  rw [grid_get0, if_pos (by norm_num : (154 : ℚ) < 180), mul_one] at hval
  have hmm0 := List.mem_map_of_mem (fun c : Cell => c.getD 0) hmem0
  rw [hval] at hmm0
  have hmm : ps.getD 52 0 * ps.getD 0 0 / sVal
      ∈ ((heightPosterior ps).data.map fun row => row.getD 52 none).map
          fun c => c.getD 0 := by
    simpa using hmm0
  have hnn : ∀ x ∈ ((heightPosterior ps).data.map
      fun row => row.getD 52 none).map fun c => c.getD 0, 0 ≤ x := by
    intro x hx
    obtain ⟨c, hc, rfl⟩ := List.mem_map.mp hx
    exact heightPosterior_colcells_nonneg ps hpos hs hspos c hc
  have hle := List.single_le_sum hnn _ hmm
  have hp52 : 0 < ps.getD 52 0 := getD_pos ps hpos (by rw [hlen]; norm_num)
  have hp0 : 0 < ps.getD 0 0 := getD_pos ps hpos (by rw [hlen]; norm_num)
  calc (0 : ℚ) < ps.getD 52 0 * ps.getD 0 0 / sVal :=
      div_pos (mul_pos hp52 hp0) hspos
    _ ≤ _ := hle

theorem conditional_eq_none (joint : DFrame) (v : ℚ)
    (h : idxOfQ v joint.columns = none) : conditional joint v = none := by
  unfold conditional
  rw [h]

theorem conditional_eq_of_idx (joint : DFrame) (v : ℚ) (j : Nat)
    (h : idxOfQ v joint.columns = some j) :
    conditional joint v = some (joint.index,
      (joint.data.map fun row => row.getD j none).map fun c =>
        cellDiv c (some (seriesSum (joint.data.map fun row =>
          row.getD j none)))) := by
  unfold conditional
  rw [h]

/-- C7: on the height example (96-point grid from 154 to 201.5 in steps of
0.5, any strictly positive prior weights such as the normal density with
mean 178 and std 7.7, evidence x > y), conditioning the joint posterior on
the first variable at 180 behaves as claimed: lookup of any value that is
not a grid point yields the KeyError (ValueNotFound) outcome, 180 is an
exact grid point, and the conditional slice at 180 is a normalized
distribution (weights finite, nonnegative, summing to 1) whose support
lies entirely below 180. -/
theorem c7_conditional_height (ps : List ℚ) (hlen : ps.length = 96)
    (hpos : ∀ p ∈ ps, 0 < p) :
    (∀ v : ℚ, v ∉ gridQs → conditional (heightPosterior ps) v = none)
    ∧ (180 : ℚ) ∈ gridQs
    ∧ ∃ cells : List Cell,
        conditional (heightPosterior ps) 180 = some (gridQs, cells)
        ∧ seriesSum cells = 1
        ∧ ∀ i : Nat, i < cells.length → 0 < (cells.getD i none).getD 0 →
            gridQs.getD i 0 < 180 := by
  obtain ⟨sVal, hs, hspos⟩ := heightEvidence ps hlen hpos
  have hsne := ne_of_gt hspos
  have hcols := heightPosterior_columns ps
  have hidx := heightPosterior_index ps
  refine ⟨?_, grid_mem180, ?_⟩
  · intro v hv
    exact conditional_eq_none (heightPosterior ps) v
      (by rw [hcols]; exact idxOfQ_eq_none hv)
  · have hT := heightPosterior_total_pos ps hlen hpos hs hspos
    have hTne := ne_of_gt hT
    refine ⟨((heightPosterior ps).data.map fun row => row.getD 52 none).map
        fun c => cellDiv c (some (seriesSum ((heightPosterior ps).data.map
          fun row => row.getD 52 none))), ?_, ?_, ?_⟩
    · rw [conditional_eq_of_idx (heightPosterior ps) 180 52
        (by rw [hcols]; exact idxOfQ_grid_180), hidx]
    · rw [seriesSum_div _ hTne, div_self hTne]
    · intro i hilen hipos
      have hi96 : i < 96 := by
        rw [List.length_map, List.length_map,
          heightPosterior_data_len ps hlen] at hilen
        exact hilen
      by_contra hnot
      have hcell := heightPosterior_colcell ps hlen hs hsne hi96
      rw [if_neg hnot, mul_zero, zero_div] at hcell
      have hmaplen : i < ((heightPosterior ps).data.map
          fun row => row.getD 52 none).length := by
        rw [List.length_map, heightPosterior_data_len ps hlen]
        exact hi96
      rw [getD_map_of_lt hmaplen none none, hcell, cellDiv_getD hTne] at hipos
      simp at hipos

/-- Witness for C7 with the uniform all-ones prior weights on the grid. -/
theorem c7_conditional_height_witness :
    ∃ cells : List Cell,
      conditional (heightPosterior (List.replicate 96 1)) 180
          = some (gridQs, cells)
        ∧ seriesSum cells = 1
        ∧ ∀ i : Nat, i < cells.length → 0 < (cells.getD i none).getD 0 →
            gridQs.getD i 0 < 180 :=
  (c7_conditional_height (List.replicate 96 1) (by simp)
    fun p hp => by rw [List.eq_of_mem_replicate hp]; norm_num).2.2

/-- Witness for C9 amended at a concrete unnormalized table. -/
theorem c9_normalize_mutates_witness :
    (normalize ⟨[0], [0], [[some 2]]⟩).1 ≠ (⟨[0], [0], [[some 2]]⟩ : DFrame) :=
  (c9_normalize_mutates ⟨[0], [0], [[some 2]]⟩ 2 2
    (by norm_num [dfSum, osum, cellAdd]) (by norm_num) (by norm_num)
    (by norm_num)).2

end Chap09
